import Mathlib

/-!
Shallow embedding of `src/models/SVAE.py`: the Standard VAE recommender, its
top-k recommendation routine, mini-batch generator, metrics/checkpointing
callback, and the NDCG@k evaluation pipeline. Float-valued scores and ratings
are modelled by rationals (exact stand-ins used only for comparisons and
selection), and the real-valued loss / NDCG formulas over the reals.
Fallible Python code (raising) is modelled with `Except String`.
-/

deriving instance DecidableEq for Except

namespace SVAE

/-! ### Top-k recommendation (`Metrics.recommend_k_items`, `StandardVAE.recommend_k_items`) -/

/-- Number of columns of a score matrix (numpy arrays are rectangular, so the
first row's length is the column count). -/
def numCols (m : List (List ℚ)) : ℕ := (m.headD []).length

/-- Mask applied when `remove_seen=True`: `score[seen_mask] = 0` where
`seen_mask = np.not_equal(x, 0)`. -/
def maskSeen (srow xrow : List ℚ) : List ℚ :=
  List.zipWith (fun s x => if x ≠ 0 then 0 else s) srow xrow

/-- Indices of the `k` largest entries of a row, modelling
`np.argpartition(-score, range(k), axis=1)[:, :k]`: the `k` highest-scoring
columns, ties resolved deterministically (here by column index; numpy's
introselect tie order is unspecified and no theorem below depends on it). -/
def topIdx (row : List ℚ) (k : ℕ) : List ℕ :=
  ((List.range row.length).insertionSort
    (fun i j => row.getD j 0 < row.getD i 0 ∨
      (row.getD i 0 = row.getD j 0 ∧ i ≤ j))).take k

/-- Per-row result of `top_scores = score - score_c`: the selected columns keep
their score, every other column becomes `0`. -/
def selectTopK (s : List ℚ) (tops : List ℕ) : List ℚ :=
  (List.range s.length).map (fun j => if j ∈ tops then s.getD j 0 else 0)

/-- One row of `recommend_k_items`. -/
def recommendRow (srow xrow : List ℚ) (k : ℕ) (remove_seen : Bool) : List ℚ :=
  let s := if remove_seen then maskSeen srow xrow else srow
  selectTopK s (topIdx s k)

/-- Model of `Metrics.recommend_k_items` / `StandardVAE.recommend_k_items`
(the two methods are identical), taking the score matrix returned by
`self.model.predict(x)` as an argument. `np.argpartition(-score, range(k))`
raises `ValueError: kth(=k-1) out of bounds` as soon as `k` exceeds the
number of columns, which the `Except` models. -/
def recommend_k_items (score x : List (List ℚ)) (k : ℕ) (remove_seen : Bool) :
    Except String (List (List ℚ)) :=
  if numCols score < k then .error "kth out of bounds"
  else .ok ((score.zip x).map (fun p => recommendRow p.1 p.2 k remove_seen))

/-- The fully masked matrix: what `recommend_k_items` returns when every
column of every row is selected. -/
def maskedMatrix (score x : List (List ℚ)) (remove_seen : Bool) : List (List ℚ) :=
  (score.zip x).map (fun p => if remove_seen then maskSeen p.1 p.2 else p.1)

/-! ### Mini-batch generation (`StandardVAE.nn_batch_generator`) -/

/-- Counter update at the bottom of the generator loop: `counter += 1`
followed by `if counter >= self.number_of_batches: counter = 0`. -/
def nextCounter (nb c : ℕ) : ℕ := if nb ≤ c + 1 then 0 else c + 1

/-- Counter value at the `t`-th yield (0-based) of the generator. -/
def counterAt (nb : ℕ) : ℕ → ℕ
  | 0 => 0
  | t + 1 => nextCounter nb (counterAt nb t)

/-- The matrix `x = x_train[shuffle_index, :]`. -/
def xShuffled (x_train : List (List ℚ)) (si : List ℕ) : List (List ℚ) :=
  si.map (fun i => x_train.getD i [])

/-- Batch produced for counter value `c`:
`index_batch = shuffle_index[batch_size*c : batch_size*(c+1)]` and
`x_batch = x[index_batch, :]` — note that `x` is itself already the shuffled
matrix, so the shuffle is applied twice. -/
def batchAt (x_train : List (List ℚ)) (si : List ℕ) (bs c : ℕ) : List (List ℚ) :=
  ((si.drop (bs * c)).take bs).map (fun i => (xShuffled x_train si).getD i [])

/-- The `t`-th batch yielded by `nn_batch_generator`; `si` is the permutation
`shuffle_index` that the seeded `np.random.shuffle` produced (the seeding and
the shuffle happen once, before the infinite `while` loop, so every pass
reuses the same `si`). -/
def genBatch (x_train : List (List ℚ)) (si : List ℕ) (bs nb t : ℕ) : List (List ℚ) :=
  batchAt x_train si bs (counterAt nb t)

/-! ### Constructor (`StandardVAE.__init__`) -/

structure VAEParams where
  n_users : ℕ
  original_dim : ℕ
  intermediate_dim : ℕ
  latent_dim : ℕ
  n_epochs : ℕ
  batch_size : ℕ
  k : ℕ
  verbose : ℕ
  drop_encoder : ℚ
  drop_decoder : ℚ
  beta : ℚ
  annealing : Bool
  anneal_cap : ℚ
  seed : Option ℕ
  save_path : Option String
deriving DecidableEq

structure VAEState where
  n_users : ℕ
  original_dim : ℕ
  intermediate_dim : ℕ
  latent_dim : ℕ
  n_epochs : ℕ
  batch_size : ℕ
  k : ℕ
  verbose : ℕ
  number_of_batches : ℕ
  anneal_cap : ℚ
  annealing : Bool
  beta : ℚ
  total_anneal_steps : ℤ
  drop_encoder : ℚ
  drop_decoder : ℚ
  save_path : Option String
deriving DecidableEq

/-- Model of `StandardVAE.__init__`, with its two division sites in source
order. First `number_of_batches = n_users // batch_size` runs: Python's
integer floor division raises `ZeroDivisionError` when `batch_size == 0`.
Then `beta` becomes the Keras variable `0.0` when annealing is requested and
the constant `beta` argument otherwise, and `total_anneal_steps` is computed
unconditionally as
`(number_of_batches * (n_epochs - int(n_epochs * 0.2))) // anneal_cap`
(`int(n_epochs * 0.2)` equals `n_epochs / 5` rounded down): the float floor
division raises `ZeroDivisionError` when `anneal_cap == 0` and floors the
quotient otherwise. Both raises are modelled by the `Except`. -/
def StandardVAE_init (p : VAEParams) : Except String VAEState :=
  if p.batch_size = 0 then
    .error "ZeroDivisionError: integer division or modulo by zero"
  else
    let number_of_batches := p.n_users / p.batch_size
    let beta : ℚ := if p.annealing then 0 else p.beta
    if p.anneal_cap = 0 then .error "ZeroDivisionError: float floor division by zero"
    else .ok ⟨p.n_users, p.original_dim, p.intermediate_dim, p.latent_dim, p.n_epochs,
      p.batch_size, p.k, p.verbose, number_of_batches, p.anneal_cap, p.annealing, beta,
      ⌊((number_of_batches : ℚ) * ((p.n_epochs - p.n_epochs / 5 : ℕ) : ℚ)) / p.anneal_cap⌋,
      p.drop_encoder, p.drop_decoder, p.save_path⟩

/-! ### Metrics callback state machine (`Metrics.__init__`, `Metrics.on_epoch_end`) -/

/-- State of the `Metrics` callback: `best_ndcg` (initialised to `0.0` in
`Metrics.__init__`) and the `_data` list of per-epoch NDCG values. -/
structure MetricsState where
  best_ndcg : ℚ
  data : List ℚ
deriving DecidableEq

def metricsInit : MetricsState := ⟨0, []⟩

/-- Model of `Metrics.on_epoch_end`, parameterised by the NDCG@k value
computed for the epoch. Returns the new state together with `true` exactly
when `self.model.save(self.save_path)` executed. -/
def on_epoch_end (save_path : Option String) (ndcg : ℚ) (st : MetricsState) :
    MetricsState × Bool :=
  if st.best_ndcg < ndcg then
    (⟨ndcg, st.data ++ [ndcg]⟩, save_path.isSome)
  else
    (⟨st.best_ndcg, st.data ++ [ndcg]⟩, false)

/-- Folding the callback over the sequence of per-epoch NDCG values, starting
from the freshly constructed callback. -/
def runEpochs (save_path : Option String) (l : List ℚ) : MetricsState :=
  l.foldl (fun st n => (on_epoch_end save_path n st).1) metricsInit

/-! ### Training entry point (`StandardVAE.fit`) -/

/-- Outcome of `StandardVAE.fit`: either the early `return` taken when
`self.annealing == True` (after printing the message, with the model's
parameters untouched and no epoch run), or a completed training run with the
recorded histories. -/
inductive FitOutcome (P : Type) where
  | aborted (message : String) (params : P)
  | completed (params : P) (train_loss val_loss val_ndcg : List ℚ)
deriving DecidableEq

/-- Model of `StandardVAE.fit`. `params` stands for the model's learnable
parameters and `train` for the `model.fit_generator` call (running the
epochs and returning updated parameters plus the loss/NDCG histories). -/
def StandardVAE_fit {P : Type} (st : VAEState) (params : P)
    (train : P → P × (List ℚ × List ℚ × List ℚ)) : FitOutcome P :=
  if st.annealing = true then
    .aborted "annealing is not supported. Please set to False" params
  else
    let r := train params
    .completed r.1 r.2.1 r.2.2.1 r.2.2.2

/-! ### Loss (`StandardVAE._get_vae_loss`) -/

/-- Keras `binary_crossentropy` along the last axis: the mean over the
`original_dim` items of the Bernoulli cross-entropy. -/
noncomputable def binary_crossentropy (d : ℕ) (x x_bar : Fin d → ℝ) : ℝ :=
  (∑ i, -(x i * Real.log (x_bar i) + (1 - x i) * Real.log (1 - x_bar i))) / d

/-- Kullback-Leibler term of `_get_vae_loss`:
`0.5 * K.sum(-1 - z_log_var + K.square(z_mean) + K.exp(z_log_var))`. -/
noncomputable def kl_loss (ld : ℕ) (mean log_var : Fin ld → ℝ) : ℝ :=
  (1 / 2) * ∑ i, (-1 - log_var i + (mean i) ^ 2 + Real.exp (log_var i))

/-- Model of `StandardVAE._get_vae_loss`:
`original_dim * binary_crossentropy(x, x_bar) + beta * kl_loss`. -/
noncomputable def get_vae_loss (d ld : ℕ) (x x_bar : Fin d → ℝ)
    (mean log_var : Fin ld → ℝ) (beta : ℝ) : ℝ :=
  d * binary_crossentropy d x x_bar + beta * kl_loss ld mean log_var

/-- Modelled from the spec: the multinomial/categorical cross-entropy of the
reconstruction, the reading of `cross_entropy` that the spec's decoder
contract (probability-simplex output interpreted as a categorical
distribution) describes. Declared only to compare against the source loss. -/
noncomputable def categorical_crossentropy (d : ℕ) (x x_bar : Fin d → ℝ) : ℝ :=
  -∑ i, x i * Real.log (x_bar i)

/-- Modelled from the spec: the loss the claim asserts, with the categorical
reconstruction term in place of the source's Bernoulli one. -/
noncomputable def spec_vae_loss (d ld : ℕ) (x x_bar : Fin d → ℝ)
    (mean log_var : Fin ld → ℝ) (beta : ℝ) : ℝ :=
  d * categorical_crossentropy d x x_bar + beta * kl_loss ld mean log_var

/-! ### NDCG evaluation pipeline (`ndcg_at_k`, `merge_ranking_true_pred`,
`get_top_k_items`) -/

/-- One row of a rating/prediction dataframe: `(userId, movieId, value)`.
The float rating/prediction column is modelled by a rational: `ndcg_at_k`
only ever compares these values. -/
structure Rating where
  user : ℕ
  item : ℕ
  rating : ℚ
deriving DecidableEq

/-- One row of `df_hit`: `(userId, movieId, rank)`. -/
structure HitRow where
  user : ℕ
  item : ℕ
  rank : ℕ
deriving DecidableEq

/-- Users of a dataframe, in order of first appearance (a Python `set` built
from the column; only membership and cardinality of the result are used). -/
def usersOf (l : List Rating) : List ℕ := (l.map Rating.user).dedup

/-- The set intersection `set(rating_true[col_user]) & set(rating_pred[col_user])`. -/
def common_users (t p : List Rating) : List ℕ :=
  (usersOf t).filter (fun u => u ∈ usersOf p)

/-- `df[df[col_user].isin(common_users)]`. -/
def filterUsers (l : List Rating) (us : List ℕ) : List Rating :=
  l.filter (fun r => r.user ∈ us)

/-- The rows of one user's group in a `groupby(col_user)`. -/
def userGroup (l : List Rating) (u : ℕ) : List Rating :=
  l.filter (fun r => r.user = u)

/-- Pandas `nlargest(k, col_rating)`: the `k` rows with the largest rating,
sorted descending, ties kept in first-appearance order (`keep="first"`). -/
def nlargest (k : ℕ) (l : List Rating) : List Rating :=
  (l.insertionSort (fun a b => b.rating ≤ a.rating)).take k

/-- Model of `get_top_k_items` before the rank column is added: `k = None`
passes the dataframe through; otherwise
`dataframe.groupby(col_user).apply(lambda x: x.nlargest(k, col_rating))`
concatenates each user's top-k block in ascending user order. -/
def get_top_k_items (df : List Rating) (k : Option ℕ) : List Rating :=
  match k with
  | none => df
  | some k =>
    ((usersOf df).insertionSort (fun a b => a ≤ b)).flatMap
      (fun u => nlargest k (userGroup df u))

/-- The rank column `groupby(col_user, sort=False).cumcount() + 1`: each row's
rank is one plus the number of earlier rows with the same user. `pre` carries
the rows already passed. -/
def addRankFrom (pre : List Rating) : List Rating → List HitRow
  | [] => []
  | r :: rest =>
    ⟨r.user, r.item, (pre.filter (fun s => s.user = r.user)).length + 1⟩ ::
      addRankFrom (pre ++ [r]) rest

def addRank (df : List Rating) : List HitRow := addRankFrom [] df

/-- Membership test used by the inner `pd.merge(df_hit, rating_true_common,
on=[col_user, col_item])`: the true table's keys are unique, so the merge
keeps exactly the prediction rows whose `(user, item)` occurs in the true
table. -/
def matchTrue (tc : List Rating) (h : HitRow) : Bool :=
  tc.any (fun r => r.user == h.user && r.item == h.item)

/-- The `actual` column of `df_hit_count`: number of true rows of a user. -/
def actualCount (tc : List Rating) (u : ℕ) : ℕ :=
  (tc.filter (fun r => r.user = u)).length

/-- Dispatch on `relevancy_method`: `top_k` uses `k`, `by_threshold` uses
`threshold`, `None` passes `None` through; anything else raises
`NotImplementedError("Invalid relevancy_method")`. -/
def relevancyTopK (method : Option String) (k threshold : ℕ) :
    Except String (Option ℕ) :=
  if method = some "top_k" then .ok (some k)
  else if method = some "by_threshold" then .ok (some threshold)
  else if method = none then .ok none
  else .error "Invalid relevancy_method"

/-- Model of `merge_ranking_true_pred`: returns `df_hit` (the ranked
prediction rows that occur in the true table), `df_hit_count` (per user with
at least one hit: hit count and actual count), and `n_users` (number of
common users). -/
def merge_ranking_true_pred (t p : List Rating) (method : Option String)
    (k threshold : ℕ) :
    Except String (List HitRow × List (ℕ × ℕ × ℕ) × ℕ) :=
  let cu := common_users t p
  let tc := filterUsers t cu
  let pc := filterUsers p cu
  match relevancyTopK method k threshold with
  | .error e => .error e
  | .ok topk =>
    let hits := (addRank (get_top_k_items pc topk)).filter (matchTrue tc)
    .ok (hits,
      ((hits.map HitRow.user).dedup).map
        (fun u => (u, (hits.filter (fun h => h.user = u)).length, actualCount tc u)),
      cu.length)

/-- Discounted gain of one hit: `1 / np.log1p(rank)` (natural logarithm). -/
noncomputable def dcgTerm (r : ℕ) : ℝ := 1 / Real.log (1 + (r : ℝ))

/-- Per-user DCG: sum of the discounted gains of the user's hits. -/
noncomputable def dcgOf (hits : List HitRow) (u : ℕ) : ℝ :=
  ((hits.filter (fun h => h.user = u)).map (fun h => dcgTerm h.rank)).sum

/-- Ideal DCG for `m = min(actual, k)` relevant items:
`sum(1 / np.log1p(range(1, m + 1)))`. -/
noncomputable def idcgOf (m : ℕ) : ℝ :=
  ((List.range m).map (fun i => dcgTerm (1 + i))).sum

/-- The final aggregation `(df_ndcg["dcg"] / df_ndcg["idcg"]).sum() / n_users`:
one term per user having at least one hit. -/
noncomputable def ndcg_value (hits : List HitRow) (tc : List Rating)
    (k n_users : ℕ) : ℝ :=
  (((hits.map HitRow.user).dedup).map
    (fun u => dcgOf hits u / idcgOf (min (actualCount tc u) k))).sum / n_users

/-- Model of `ndcg_at_k` (with `relevancy_method` and its default `k`
exposed): merge, early `return 0.0` when `df_hit` is empty, otherwise the
per-user DCG/IDCG aggregation. The `actual` counts of `df_hit_count` are the
`actualCount` values over the common-user-filtered true table. -/
noncomputable def ndcg_at_k (t p : List Rating) (method : Option String)
    (k threshold : ℕ) : Except String ℝ :=
  match merge_ranking_true_pred t p method k threshold with
  | .error e => .error e
  | .ok (hits, _, n_users) =>
    if hits.isEmpty then .ok 0
    else .ok (ndcg_value hits (filterUsers t (common_users t p)) k n_users)

/-- The common-user-filtered true table used inside `merge_ranking_true_pred`. -/
def tcOf (t p : List Rating) : List Rating := filterUsers t (common_users t p)

/-- The common-user-filtered prediction table used inside
`merge_ranking_true_pred`. -/
def pcOf (t p : List Rating) : List Rating := filterUsers p (common_users t p)

/-- The `df_hit` table `merge_ranking_true_pred` computes for the `top_k`
relevancy method. -/
def hitsOf (t p : List Rating) (k : ℕ) : List HitRow :=
  (addRank (get_top_k_items (pcOf t p) (some k))).filter (matchTrue (tcOf t p))

/-! ### Helper lemmas about the top-k selection -/

theorem length_selectTopK (s : List ℚ) (tops : List ℕ) :
    (selectTopK s tops).length = s.length := by
  simp [selectTopK]

theorem selectTopK_getD (s : List ℚ) (tops : List ℕ) (j : ℕ) (hj : j < s.length) :
    (selectTopK s tops).getD j 0 = if j ∈ tops then s.getD j 0 else 0 := by
  have hj' : j < (selectTopK s tops).length := by rw [length_selectTopK]; exact hj
  rw [List.getD_eq_getElem _ _ hj']
  simp [selectTopK]

theorem length_maskSeen (srow xrow : List ℚ) (h : xrow.length = srow.length) :
    (maskSeen srow xrow).length = srow.length := by
  simp [maskSeen, h]

theorem maskSeen_getD (srow xrow : List ℚ) (j : ℕ)
    (hj : j < (maskSeen srow xrow).length) :
    (maskSeen srow xrow).getD j 0 =
      if xrow.getD j 0 ≠ 0 then 0 else srow.getD j 0 := by
  have hj' : j < srow.length ∧ j < xrow.length := by
    simpa [maskSeen, List.length_zipWith, lt_min_iff] using hj
  rw [List.getD_eq_getElem _ _ hj, List.getD_eq_getElem srow 0 hj'.1,
    List.getD_eq_getElem xrow 0 hj'.2]
  simp [maskSeen, List.getElem_zipWith]

theorem mem_topIdx_full (s : List ℚ) (j : ℕ) (hj : j < s.length) :
    j ∈ topIdx s s.length := by
  unfold topIdx
  have hperm := List.perm_insertionSort
    (fun i j => s.getD j 0 < s.getD i 0 ∨ (s.getD i 0 = s.getD j 0 ∧ i ≤ j))
    (List.range s.length)
  rw [List.take_of_length_le (le_of_eq (hperm.length_eq.trans (List.length_range _)))]
  exact hperm.mem_iff.mpr (List.mem_range.mpr hj)

theorem selectTopK_all (s : List ℚ) (tops : List ℕ) (h : ∀ j < s.length, j ∈ tops) :
    selectTopK s tops = s := by
  apply List.ext_getElem (by simp [length_selectTopK])
  intro j hj hj'
  simp only [selectTopK, List.getElem_map, List.getElem_range]
  rw [if_pos (h j (by simpa [length_selectTopK] using hj)),
    List.getD_eq_getElem _ _ hj']

/-! ### C1: `remove_seen=True` zeroes previously seen items -/

/-- C1: with `remove_seen=True`, every position where the input interaction
matrix `x` is nonzero carries score `0` in the top-k score matrix returned by
`recommend_k_items` (previously seen items are never recommended). -/
theorem recommend_k_items_remove_seen_zero (score x out : List (List ℚ)) (k i j : ℕ)
    (hrows : x.length = score.length)
    (hlen : ∀ i' < score.length, (x.getD i' []).length = (score.getD i' []).length)
    (hok : recommend_k_items score x k true = .ok out)
    (hi : i < score.length)
    (hj : j < (score.getD i []).length)
    (hx : (x.getD i []).getD j 0 ≠ 0) :
    (out.getD i []).getD j 0 = 0 := by
  unfold recommend_k_items at hok
  split at hok
  · exact absurd hok (by simp)
  · have hout : out = (score.zip x).map (fun p => recommendRow p.1 p.2 k true) :=
      (Except.ok.injEq _ _ ▸ hok).symm
    have hiz : i < (score.zip x).length := by
      simpa [List.length_zip, hrows] using hi
    have hix : i < x.length := hrows ▸ hi
    have hrowi : (score.zip x)[i] = (score[i], x[i]) := List.getElem_zip
    have : out.getD i [] = recommendRow score[i] x[i] k true := by
      rw [hout, List.getD_eq_getElem _ _ (by simpa using hiz), List.getElem_map, hrowi]
    rw [this]
    have hrr : recommendRow score[i] x[i] k true =
        selectTopK (maskSeen score[i] x[i]) (topIdx (maskSeen score[i] x[i]) k) := rfl
    rw [hrr]
    have hxlen : x[i].length = score[i].length := by
      have h0 := hlen i hi
      rwa [List.getD_eq_getElem _ _ hix, List.getD_eq_getElem _ _ hi] at h0
    have hmlen : (maskSeen score[i] x[i]).length = score[i].length :=
      length_maskSeen _ _ hxlen
    have hj' : j < score[i].length := by
      rwa [List.getD_eq_getElem _ _ hi] at hj
    rw [selectTopK_getD _ _ _ (by rw [length_maskSeen _ _ hxlen]; exact hj'),
      maskSeen_getD _ _ _ (by rw [hmlen]; exact hj')]
    have hxj : x[i].getD j 0 ≠ 0 := by
      rwa [List.getD_eq_getElem _ _ hix] at hx
    rw [if_pos hxj]
    exact ite_self 0

/-- Witness for C1 at a concrete call: score row `[1, 2]`, interaction row
`[1, 0]`, `k = 1`; the seen column 0 comes back with score `0`. -/
theorem recommend_k_items_remove_seen_zero_witness :
    (([[(0:ℚ), 2]] : List (List ℚ)).getD 0 []).getD 0 0 = 0 :=
  recommend_k_items_remove_seen_zero [[1, 2]] [[1, 0]] [[0, 2]] 1 0 0
    (by decide) (by decide) (by decide) (by decide) (by decide) (by decide)

/-! ### C2: behaviour at and beyond `k = n_items` -/

/-- C2 counterexample: with 2 items and `k = 3 ≥ n_items`,
`np.argpartition(-score, range(k))` raises (`kth out of bounds`) instead of
degenerately selecting all items, so the call fails. -/
theorem recommend_k_items_k_gt_items_error :
    recommend_k_items [[(1:ℚ), 2]] [[0, 0]] 3 true = .error "kth out of bounds" := by
  decide

/-- Helper: when `k` equals the row length, every column is selected and the
row comes back unchanged (after the optional masking). -/
theorem recommendRow_full (srow xrow : List ℚ) (b : Bool)
    (hxlen : xrow.length = srow.length) :
    recommendRow srow xrow srow.length b =
      (if b then maskSeen srow xrow else srow) := by
  cases b
  · show selectTopK srow (topIdx srow srow.length) = srow
    exact selectTopK_all _ _ (fun j hj => mem_topIdx_full srow j hj)
  · show selectTopK (maskSeen srow xrow) (topIdx (maskSeen srow xrow) srow.length)
      = maskSeen srow xrow
    rw [← length_maskSeen srow xrow hxlen]
    exact selectTopK_all _ _ (fun j hj => mem_topIdx_full _ j hj)

/-- C2 amended: top-k selection succeeds whenever `k ≤ n_items` — in
particular on rows whose scores are all zero, which are handled like any
other row — and in the degenerate case `k = n_items` it selects every item:
the output is exactly the (masked) score matrix. For `k > n_items` the
underlying `argpartition` raises. -/
theorem recommend_k_items_k_le_items (score x : List (List ℚ)) (k : ℕ) (b : Bool)
    (hk : k ≤ numCols score)
    (hrect : ∀ i < score.length, (score.getD i []).length = numCols score)
    (hx : ∀ i < score.length, (x.getD i []).length = (score.getD i []).length) :
    (∃ out, recommend_k_items score x k b = .ok out)
    ∧ (k = numCols score →
        recommend_k_items score x k b = .ok (maskedMatrix score x b)) := by
  constructor
  · exact ⟨_, by unfold recommend_k_items; rw [if_neg (not_lt.mpr hk)]⟩
  · intro hkn
    unfold recommend_k_items
    rw [if_neg (not_lt.mpr hk)]
    unfold maskedMatrix
    congr 1
    apply List.ext_getElem (by simp)
    intro i hi hi'
    have hiz : i < (score.zip x).length := by simpa using hi
    have hilen : i < score.length := by
      rw [List.length_zip] at hiz; exact hiz.trans_le (min_le_left _ _)
    have hixlen : i < x.length := by
      rw [List.length_zip] at hiz
      exact lt_of_lt_of_le hiz (min_le_right _ _)
    simp only [List.getElem_map, List.getElem_zip]
    have hxl : x[i].length = score[i].length := by
      have h0 := hx i hilen
      rwa [List.getD_eq_getElem _ _ hixlen, List.getD_eq_getElem _ _ hilen] at h0
    have hkeq : k = score[i].length := by
      rw [hkn]
      have h0 := hrect i hilen
      rw [List.getD_eq_getElem _ _ hilen] at h0
      exact h0.symm
    have hfull := recommendRow_full score[i] x[i] b hxl
    rw [← hkeq] at hfull
    exact hfull

/-- Witness for C2 at a concrete call: 2 items and `k = 2 = n_items`; the
selection succeeds and keeps every (masked) score. -/
theorem recommend_k_items_k_le_items_witness :
    recommend_k_items [[(1:ℚ), 2]] [[3, 0]] 2 true = .ok [[0, 2]] := by
  have h := recommend_k_items_k_le_items [[(1:ℚ), 2]] [[3, 0]] 2 true
    (by decide) (by decide) (by decide)
  rw [h.2 (by decide)]
  decide

/-! ### C3: batch generator pass structure -/

theorem counterAt_mod (nb : ℕ) (h : 0 < nb) (t : ℕ) : counterAt nb t = t % nb := by
  induction t with
  | zero => rfl
  | succ t ih =>
    have hm : t % nb < nb := Nat.mod_lt _ h
    have key : (t % nb + 1) % nb = (t + 1) % nb := Nat.mod_add_mod t nb 1
    show nextCounter nb (counterAt nb t) = (t + 1) % nb
    rw [ih]
    unfold nextCounter
    rcases Nat.lt_or_ge (t % nb + 1) nb with h2 | h2
    · rw [if_neg (Nat.not_le.mpr h2), ← key, Nat.mod_eq_of_lt h2]
    · have h3 : t % nb + 1 = nb := Nat.le_antisymm (Nat.succ_le_of_lt hm) h2
      rw [if_pos h2, ← key, h3, Nat.mod_self]

/-- C3: with `shuffle_index` (`si`) the permutation the seeded
`np.random.shuffle` produced — derived once before the `while` loop, hence
identical across passes, and identical across runs given the same seed — the
generator cycles with period `number_of_batches = n_users / batch_size`
(integer division, so exactly `n / bs` batches per pass, e.g. 2 for 250
users at batch size 100): each pass yields `n / bs` batches of `bs` rows and
successive passes repeat identically. Every row a pass emits is the doubly
shuffled row `x_train[si[si[bs*c + r]]]` for a position `bs*c + r`
strictly below `batch_size * number_of_batches`, so rows beyond that cutoff
in the shuffled order are never emitted within a pass. -/
theorem nn_batch_generator_pass (x_train : List (List ℚ)) (si : List ℕ) (bs n : ℕ)
    (hn : n = x_train.length) (hperm : si.Perm (List.range n))
    (hbs : 0 < bs) (hle : bs ≤ n) :
    0 < n / bs
    ∧ (∀ t, genBatch x_train si bs (n / bs) (t + n / bs) =
        genBatch x_train si bs (n / bs) t)
    ∧ (∀ c < n / bs, (batchAt x_train si bs c).length = bs)
    ∧ (∀ c < n / bs, ∀ r < bs, bs * c + r < bs * (n / bs)
        ∧ (batchAt x_train si bs c).getD r [] =
            x_train.getD (si.getD (si.getD (bs * c + r) 0) 0) []) := by
  have hnb : 0 < n / bs := (Nat.one_le_div_iff hbs).mpr hle
  have hsil : si.length = n := hperm.length_eq.trans (List.length_range n)
  have hcut : bs * (n / bs) ≤ n := by
    calc bs * (n / bs) = n / bs * bs := Nat.mul_comm _ _
    _ ≤ n := Nat.div_mul_le_self n bs
  have hpos : ∀ c < n / bs, ∀ r < bs, bs * c + r < bs * (n / bs) := by
    intro c hc r hr
    calc bs * c + r < bs * c + bs := Nat.add_lt_add_left hr _
    _ = bs * (c + 1) := by ring
    _ ≤ bs * (n / bs) := Nat.mul_le_mul_left bs (Nat.succ_le_of_lt hc)
  refine ⟨hnb, ?_, ?_, ?_⟩
  · intro t
    unfold genBatch
    rw [counterAt_mod _ hnb, counterAt_mod _ hnb, Nat.add_mod_right]
  · intro c hc
    have : bs * c + bs ≤ n := by
      have := hpos c hc (bs - 1) (by omega)
      omega
    simp only [batchAt, List.length_map, List.length_take, List.length_drop, hsil]
    omega
  · intro c hc r hr
    refine ⟨hpos c hc r hr, ?_⟩
    have hidx : bs * c + r < si.length := by
      have := hpos c hc r hr
      omega
    have hr' : r < ((si.drop (bs * c)).take bs).length := by
      simp only [List.length_take, List.length_drop, hsil]
      have := hpos c hc r hr
      omega
    unfold batchAt
    rw [List.getD_eq_getElem _ _ (by simpa using hr'), List.getElem_map,
      List.getElem_take, List.getElem_drop]
    have hmem : si[bs * c + r] ∈ List.range n :=
      hperm.mem_iff.mp (List.getElem_mem hidx)
    have hval : si[bs * c + r] < si.length := by
      rw [hsil]; exact List.mem_range.mp hmem
    unfold xShuffled
    rw [List.getD_eq_getElem _ _ (by simpa using hval), List.getElem_map,
      List.getD_eq_getElem _ _ hidx, List.getD_eq_getElem _ _ hval]

/-- Witness for C3: 3 users, batch size 1, shuffle `[2, 0, 1]`; each pass
has `3 / 1 = 3` batches of one row each. -/
theorem nn_batch_generator_pass_witness :
    0 < 3 / 1 ∧ (batchAt [[(1:ℚ)], [2], [3]] [2, 0, 1] 1 0).length = 1 := by
  have h := nn_batch_generator_pass [[(1:ℚ)], [2], [3]] [2, 0, 1] 1 3
    (by decide) (by decide) (by decide) (by decide)
  exact ⟨h.1, h.2.2.1 0 (by decide)⟩

/-! ### C5: fit aborts when annealing is requested -/

/-- C5: when the model state carries `annealing = true`, `fit` reports the
unsupported-annealing condition and returns before any epoch runs: the
outcome is `aborted` with the printed message and the original, unmutated
parameters (the model stays untrained for that call). -/
theorem standardVAE_fit_annealing_aborts {P : Type} (st : VAEState) (params : P)
    (train : P → P × (List ℚ × List ℚ × List ℚ)) (h : st.annealing = true) :
    StandardVAE_fit st params train =
      .aborted "annealing is not supported. Please set to False" params := by
  unfold StandardVAE_fit
  rw [if_pos h]

/-- Witness for C5: a concrete state with `annealing = true`; the epoch
runner (which would change the parameters `37` to `38`) never executes. -/
theorem standardVAE_fit_annealing_aborts_witness :
    StandardVAE_fit ⟨250, 50, 200, 70, 400, 100, 100, 1, 2, 1, true, 0, 640, 1/2, 1/2, none⟩
        (37 : ℕ) (fun p => (p + 1, ([], [], []))) =
      .aborted "annealing is not supported. Please set to False" 37 :=
  standardVAE_fit_annealing_aborts _ _ _ rfl

/-! ### C8: checkpointing state machine -/

theorem on_epoch_end_state (save_path : Option String) (a b : ℚ) (d : List ℚ) :
    (on_epoch_end save_path a ⟨b, d⟩).1 = ⟨max b a, d ++ [a]⟩ := by
  unfold on_epoch_end
  rcases lt_or_le b a with h | h
  · simp [h, max_eq_right h.le]
  · simp [not_lt.mpr h, max_eq_left h]

theorem runEpochs_best_foldl (save_path : Option String) (l : List ℚ) (b : ℚ)
    (d : List ℚ) :
    ((l.foldl (fun st n => (on_epoch_end save_path n st).1) ⟨b, d⟩).best_ndcg)
      = l.foldl max b := by
  induction l generalizing b d with
  | nil => rfl
  | cons a l ih =>
    rw [List.foldl_cons, List.foldl_cons, on_epoch_end_state]
    exact ih (max b a) (d ++ [a])

/-- C8: the checkpointing state machine. `best_ndcg` starts at `0.0`
(`Metrics.__init__`); at each epoch end the model is persisted exactly when
the epoch's NDCG strictly exceeds `best_ndcg` and a save path is configured
(no save path makes persistence a no-op); `best_ndcg` never decreases; and
after any sequence of epochs it equals the maximum of `0` and every NDCG
value observed so far. -/
theorem metrics_checkpoint_spec (save_path : Option String) (n : ℚ)
    (st : MetricsState) (l : List ℚ) :
    metricsInit.best_ndcg = 0
    ∧ (on_epoch_end save_path n st).2 = (decide (st.best_ndcg < n) && save_path.isSome)
    ∧ st.best_ndcg ≤ ((on_epoch_end save_path n st).1).best_ndcg
    ∧ (runEpochs save_path l).best_ndcg = l.foldl max 0 := by
  refine ⟨rfl, ?_, ?_, ?_⟩
  · unfold on_epoch_end
    rcases lt_or_le st.best_ndcg n with h | h
    · simp [h]
    · simp [not_lt.mpr h, not_lt_of_le h]
  · obtain ⟨b, d⟩ := st
    rw [on_epoch_end_state]
    exact le_max_left _ _
  · exact runEpochs_best_foldl save_path l 0 []

/-! ### C9: relevancy-method dispatch -/

/-- C9: every `relevancy_method` other than `top_k`, `by_threshold` and
`None` makes `merge_ranking_true_pred` (and hence `ndcg_at_k`) raise
`NotImplementedError("Invalid relevancy_method")`, while the three supported
values never raise. -/
theorem merge_ranking_relevancy_method (t p : List Rating) (k thr : ℕ)
    (m : Option String) :
    (m ≠ some "top_k" → m ≠ some "by_threshold" → m ≠ none →
      merge_ranking_true_pred t p m k thr = .error "Invalid relevancy_method")
    ∧ ((m = some "top_k" ∨ m = some "by_threshold" ∨ m = none) →
      ∃ out, merge_ranking_true_pred t p m k thr = .ok out) := by
  constructor
  · intro h1 h2 h3
    unfold merge_ranking_true_pred relevancyTopK
    simp [h1, h2, h3]
  · rintro (h | h | h) <;>
      · unfold merge_ranking_true_pred relevancyTopK
        simp [h]

/-- Witness for C9: a concrete unsupported method raises, and `top_k`
succeeds. -/
theorem merge_ranking_relevancy_method_witness :
    merge_ranking_true_pred [] [] (some "bogus") 10 10
        = .error "Invalid relevancy_method"
    ∧ ∃ out, merge_ranking_true_pred [] [] (some "top_k") 10 10 = .ok out :=
  ⟨(merge_ranking_relevancy_method [] [] 10 10 (some "bogus")).1
      (by decide) (by decide) (by decide),
    (merge_ranking_relevancy_method [] [] 10 10 (some "top_k")).2 (Or.inl rfl)⟩

/-! ### C7: zero hits short-circuit -/

/-- C7: whenever the merge of predicted top-k and true interactions yields
zero hits (`df_hit` empty), `ndcg_at_k` returns `0.0` through the early
guard, before any per-user DCG/IDCG division is attempted. -/
theorem ndcg_at_k_zero_hits (t p : List Rating) (k thr : ℕ)
    (counts : List (ℕ × ℕ × ℕ)) (n_users : ℕ)
    (h : merge_ranking_true_pred t p (some "top_k") k thr
        = .ok ([], counts, n_users)) :
    ndcg_at_k t p (some "top_k") k thr = .ok 0 := by
  unfold ndcg_at_k
  rw [h]
  rfl

/-- Witness for C7: disjoint items for the single common user, so the merge
has zero hits and the metric is exactly `0.0`. -/
theorem ndcg_at_k_zero_hits_witness :
    ndcg_at_k [⟨1, 1, 1⟩] [⟨1, 2, 1⟩] (some "top_k") 1 10 = .ok 0 :=
  ndcg_at_k_zero_hits [⟨1, 1, 1⟩] [⟨1, 2, 1⟩] 1 10 [] 1 (by decide)

/-! ### C10: constructor division by `anneal_cap` -/

/-- C10 counterexample: with `batch_size = 0` and the nonzero
`anneal_cap = 1`, the constructor still raises — `n_users // batch_size`
(line 185) divides by zero before the `anneal_cap` division is reached — so
"for every nonzero `anneal_cap` the constructor completes" is false. -/
theorem standardVAE_init_batch_size_zero_error :
    StandardVAE_init
      ⟨250, 50, 200, 70, 400, 0, 100, 1, 1/2, 1/2, 1, false, 1, none, none⟩
        = .error "ZeroDivisionError: integer division or modulo by zero" := rfl

/-- C10 amended: `total_anneal_steps` is computed unconditionally by
floor-dividing by `anneal_cap`, so `anneal_cap = 0` always makes the
constructor raise a `ZeroDivisionError` — even when `annealing` is `False`.
For nonzero `anneal_cap` the constructor completes provided
`batch_size ≠ 0`; when `batch_size = 0` the earlier division
`n_users // batch_size` raises `ZeroDivisionError` first, whatever
`anneal_cap` is. -/
theorem standardVAE_init_anneal_cap (p : VAEParams) :
    (p.anneal_cap = 0 → ∃ e, StandardVAE_init p = .error e)
    ∧ (p.batch_size ≠ 0 →
        (StandardVAE_init p = .error "ZeroDivisionError: float floor division by zero"
          ↔ p.anneal_cap = 0))
    ∧ (p.batch_size ≠ 0 → p.anneal_cap ≠ 0 →
        ∃ st, StandardVAE_init p = .ok st) := by
  unfold StandardVAE_init
  by_cases hb : p.batch_size = 0 <;>
    by_cases hc : p.anneal_cap = 0 <;>
      simp [hb, hc]

/-- Witness for C10: a concrete constructor call with `batch_size = 100 ≠ 0`
and `anneal_cap = 1 ≠ 0` (and `annealing = False`) completes. -/
theorem standardVAE_init_anneal_cap_witness :
    ∃ st, StandardVAE_init
      ⟨250, 50, 200, 70, 400, 100, 100, 1, 1/2, 1/2, 1, false, 1, none, none⟩
        = .ok st :=
  (standardVAE_init_anneal_cap _).2.2 (by decide) (by decide)

/-! ### C4: the reconstruction term of the loss -/

/-- C4 counterexample: at `x = (1,1)`, `x_bar = (1/2,1/2)`, zero latent mean
and log-variance (so the KL term vanishes) and `beta = 1`, the source loss —
built on Keras `binary_crossentropy` (the code comments call it the logistic
log likelihood) — equals `2 log 2`, while the multinomial/categorical loss
the claim describes equals `4 log 2`; the two disagree. -/
theorem get_vae_loss_not_categorical :
    get_vae_loss 2 1 ![1, 1] ![1/2, 1/2] ![0] ![0] 1 ≠
      spec_vae_loss 2 1 ![1, 1] ![1/2, 1/2] ![0] ![0] 1 := by
  have hhalf : Real.log ((1:ℝ)/2) = -Real.log 2 := by
    rw [one_div, Real.log_inv]
  have hhalf' : Real.log ((2:ℝ)⁻¹) = -Real.log 2 := Real.log_inv 2
  intro h
  unfold get_vae_loss spec_vae_loss binary_crossentropy categorical_crossentropy
    kl_loss at h
  simp only [Fin.sum_univ_two, Fin.sum_univ_one, Matrix.cons_val_zero,
    Matrix.cons_val_one, Matrix.head_cons, Real.exp_zero, Fin.isValue] at h
  norm_num [hhalf, hhalf'] at h

/-- C4 amended: the loss is `original_dim * cross_entropy + beta * KL` with
`KL = 0.5 * Σ (-1 - log_variance + mean² + exp(log_variance))` exactly as
claimed, but the reconstruction `cross_entropy` is the Bernoulli (binary)
cross-entropy averaged over the `original_dim` items — not the
multinomial/categorical one of the decoder contract. -/
theorem get_vae_loss_formula (d ld : ℕ) (x x_bar : Fin d → ℝ)
    (mean log_var : Fin ld → ℝ) (beta : ℝ) :
    get_vae_loss d ld x x_bar mean log_var beta =
      d * ((∑ i, -(x i * Real.log (x_bar i) + (1 - x i) * Real.log (1 - x_bar i))) / d)
        + beta * ((1 / 2) * ∑ i, (-1 - log_var i + (mean i) ^ 2 + Real.exp (log_var i))) :=
  rfl

/-! ### C6: helper lemmas for the NDCG bound -/

theorem dcgTerm_nonneg (r : ℕ) : 0 ≤ dcgTerm r := by
  unfold dcgTerm
  apply div_nonneg zero_le_one
  apply Real.log_nonneg
  exact le_add_of_nonneg_right (Nat.cast_nonneg r)

theorem dcgTerm_pos (r : ℕ) (h : 1 ≤ r) : 0 < dcgTerm r := by
  unfold dcgTerm
  apply div_pos one_pos
  apply Real.log_pos
  have h' : (1:ℝ) ≤ (r:ℝ) := by exact_mod_cast h
  linarith

theorem dcgTerm_anti (i j : ℕ) (hi : 1 ≤ i) (hij : i ≤ j) : dcgTerm j ≤ dcgTerm i := by
  unfold dcgTerm
  apply one_div_le_one_div_of_le
  · apply Real.log_pos
    have h' : (1:ℝ) ≤ (i:ℝ) := by exact_mod_cast hi
    linarith
  · apply Real.log_le_log (by positivity)
    have h' : (i:ℝ) ≤ (j:ℝ) := by exact_mod_cast hij
    linarith

/-- A strictly increasing list of ranks, all above `c`, contributes at most
the ideal sum starting at `c + 1`. -/
theorem sum_dcgTerm_le (rs : List ℕ) : ∀ (c : ℕ), rs.Pairwise (· < ·) →
    (∀ r ∈ rs, c < r) →
    (rs.map dcgTerm).sum
      ≤ ((List.range rs.length).map (fun i => dcgTerm (c + 1 + i))).sum := by
  induction rs with
  | nil => intro c _ _; simp
  | cons a rs ih =>
    intro c hpw hlb
    rw [List.map_cons, List.sum_cons, List.length_cons, List.range_succ_eq_map,
      List.map_cons, List.map_map]
    rw [List.sum_cons]
    have hhead : dcgTerm a ≤ dcgTerm (c + 1 + 0) :=
      dcgTerm_anti (c + 1 + 0) a (by omega)
        (by have := hlb a (List.mem_cons_self a rs); omega)
    have hcomp : ((fun i => dcgTerm (c + 1 + i)) ∘ Nat.succ)
        = (fun i => dcgTerm (c + 1 + 1 + i)) := by
      funext i
      show dcgTerm (c + 1 + (i + 1)) = dcgTerm (c + 1 + 1 + i)
      congr 1
      omega
    rw [hcomp]
    have htail := ih (c + 1) hpw.of_cons
      (by
        intro r hr
        have h1 := (List.pairwise_cons.mp hpw).1 r hr
        have h2 := hlb a (List.mem_cons_self a rs)
        omega)
    exact add_le_add hhead htail

theorem list_range_map_sum (g : ℕ → ℝ) (n : ℕ) :
    ((List.range n).map g).sum = ∑ i ∈ Finset.range n, g i := by
  induction n with
  | zero => simp
  | succ n ih =>
    rw [List.range_succ, List.map_append, List.sum_append, Finset.sum_range_succ, ih]
    simp

theorem idcgOf_mono (h m : ℕ) (hm : h ≤ m) : idcgOf h ≤ idcgOf m := by
  unfold idcgOf
  rw [list_range_map_sum, list_range_map_sum]
  apply Finset.sum_le_sum_of_subset_of_nonneg (Finset.range_subset.mpr hm)
  intro i _ _
  exact dcgTerm_nonneg (1 + i)

theorem idcgOf_pos (m : ℕ) (hm : 1 ≤ m) : 0 < idcgOf m := by
  unfold idcgOf
  rw [list_range_map_sum]
  apply Finset.sum_pos
  · intro i _
    exact dcgTerm_pos (1 + i) (by omega)
  · exact Finset.nonempty_range_iff.mpr (by omega)

/-- Per-user DCG is bounded by the ideal DCG as soon as the user's hit ranks
are strictly increasing, at least `1`, and there are at most `m` of them. -/
theorem dcg_le_idcg_of (hu : List HitRow) (m : ℕ)
    (hpw : hu.Pairwise (fun a b => a.rank < b.rank))
    (hrank1 : ∀ h ∈ hu, 1 ≤ h.rank)
    (hlen : hu.length ≤ m) :
    (hu.map (fun h => dcgTerm h.rank)).sum ≤ idcgOf m := by
  have h1 : (hu.map (fun h => dcgTerm h.rank)).sum
      = ((hu.map HitRow.rank).map dcgTerm).sum := by
    rw [List.map_map]; rfl
  rw [h1]
  have h2 := sum_dcgTerm_le (hu.map HitRow.rank) 0
    (List.pairwise_map.mpr hpw)
    (by
      intro r hr
      obtain ⟨h, hh, rfl⟩ := List.mem_map.mp hr
      exact hrank1 h hh)
  have h3 : ((List.range (hu.map HitRow.rank).length).map
      (fun i => dcgTerm (0 + 1 + i))).sum = idcgOf hu.length := by
    unfold idcgOf
    rw [List.length_map]
  exact (h2.trans h3.le).trans (idcgOf_mono _ _ hlen)

/-! ### C6: structural lemmas about the ranked top-k table -/

theorem addRankFrom_map_pair (df : List Rating) : ∀ (pre : List Rating),
    (addRankFrom pre df).map (fun h => (h.user, h.item))
      = df.map (fun r => (r.user, r.item)) := by
  induction df with
  | nil => intro pre; rfl
  | cons r rest ih =>
    intro pre
    simp only [addRankFrom, List.map_cons, ih]

theorem addRankFrom_rank_ge (df : List Rating) : ∀ (pre : List Rating) (x : HitRow),
    x ∈ addRankFrom pre df →
    (pre.filter (fun s => s.user = x.user)).length + 1 ≤ x.rank := by
  induction df with
  | nil => intro pre x hx; cases hx
  | cons r rest ih =>
    intro pre x hx
    rcases List.mem_cons.mp hx with h | h
    · subst h
      exact le_refl _
    · have h1 := ih (pre ++ [r]) x h
      rw [List.filter_append, List.length_append] at h1
      omega

theorem addRankFrom_pairwise (df : List Rating) : ∀ (pre : List Rating),
    (addRankFrom pre df).Pairwise (fun a b => a.user = b.user → a.rank < b.rank) := by
  induction df with
  | nil => intro pre; exact List.Pairwise.nil
  | cons r rest ih =>
    intro pre
    refine List.pairwise_cons.mpr ⟨?_, ih (pre ++ [r])⟩
    intro b hb hub
    have hge := addRankFrom_rank_ge rest (pre ++ [r]) b hb
    rw [List.filter_append, List.length_append] at hge
    have hub' : r.user = b.user := hub
    have hr1 : (List.filter (fun s => s.user = b.user) [r]).length = 1 := by
      simp [List.filter, hub']
    rw [hr1] at hge
    show (pre.filter (fun s => s.user = r.user)).length + 1 < b.rank
    have hcongr : (pre.filter (fun s => s.user = r.user))
        = (pre.filter (fun s => s.user = b.user)) := by
      simp only [hub']
    rw [hcongr]
    omega

theorem addRank_rank_ge_one (df : List Rating) (x : HitRow) (hx : x ∈ addRank df) :
    1 ≤ x.rank := by
  have h := addRankFrom_rank_ge df [] x hx
  simpa using h

theorem countP_user_addRank (df : List Rating) (u : ℕ) :
    (addRank df).countP (fun h => decide (h.user = u))
      = df.countP (fun r => decide (r.user = u)) := by
  have h1 : (addRank df).countP (fun h => decide (h.user = u))
      = ((addRank df).map (fun h => (h.user, h.item))).countP
          (fun pr => decide (pr.1 = u)) := by
    rw [List.countP_map]
    rfl
  rw [h1, addRank, addRankFrom_map_pair, List.countP_map]
  rfl

theorem mem_nlargest_user (l : List Rating) (u k : ℕ) (x : Rating)
    (hx : x ∈ nlargest k (userGroup l u)) : x.user = u := by
  unfold nlargest userGroup at hx
  have hx' := List.mem_of_mem_take hx
  have hx'' := (List.perm_insertionSort _ _).mem_iff.mp hx'
  have hb := List.of_mem_filter hx''
  simpa using hb

theorem length_nlargest_le (l : List Rating) (k : ℕ) : (nlargest k l).length ≤ k := by
  unfold nlargest
  rw [List.length_take]
  exact min_le_left _ _

theorem nlargest_pairs_nodup (l : List Rating) (k u : ℕ)
    (hl : (l.map (fun r => (r.user, r.item))).Nodup) :
    ((nlargest k (userGroup l u)).map (fun r => (r.user, r.item))).Nodup := by
  have hg : ((userGroup l u).map (fun r => (r.user, r.item))).Nodup :=
    List.Nodup.sublist ((List.filter_sublist l).map _) hl
  have hs : (((userGroup l u).insertionSort (fun a b => b.rating ≤ a.rating)).map
      (fun r => (r.user, r.item))).Nodup :=
    (((List.perm_insertionSort _ _).map _).symm).nodup hg
  unfold nlargest
  exact List.Nodup.sublist ((List.take_sublist _ _).map _) hs

theorem flatMap_nlargest_countP (df : List Rating) (k u : ℕ) :
    ∀ (vs : List ℕ), vs.Nodup →
    ((vs.flatMap (fun v => nlargest k (userGroup df v))).countP
      (fun r => decide (r.user = u))) ≤ k := by
  intro vs
  induction vs with
  | nil => intro _; simp
  | cons a vs ih =>
    intro hnd
    rw [List.flatMap_cons, List.countP_append]
    rcases List.nodup_cons.mp hnd with ⟨ha, hnd'⟩
    by_cases hau : a = u
    · have h1 : (nlargest k (userGroup df a)).countP (fun r => decide (r.user = u)) ≤ k :=
        le_trans (List.countP_le_length _) (length_nlargest_le _ _)
      have h2 : (vs.flatMap (fun v => nlargest k (userGroup df v))).countP
          (fun r => decide (r.user = u)) = 0 := by
        rw [List.countP_eq_zero]
        intro x hx
        obtain ⟨v, hv, hxv⟩ := List.mem_flatMap.mp hx
        have hxu := mem_nlargest_user df v k x hxv
        simp only [decide_eq_true_eq]
        intro hxeq
        apply ha
        have hva : v = a := by rw [hau, ← hxu]; exact hxeq
        rwa [← hva]
      omega
    · have h1 : (nlargest k (userGroup df a)).countP (fun r => decide (r.user = u)) = 0 := by
        rw [List.countP_eq_zero]
        intro x hx
        have hxu := mem_nlargest_user df a k x hx
        simp only [decide_eq_true_eq]
        rw [hxu]
        exact hau
      have h2 := ih hnd'
      omega

theorem flatMap_nlargest_pairs_nodup (df : List Rating) (k : ℕ)
    (hdf : (df.map (fun r => (r.user, r.item))).Nodup) :
    ∀ (vs : List ℕ), vs.Nodup →
    ((vs.flatMap (fun v => nlargest k (userGroup df v))).map
      (fun r => (r.user, r.item))).Nodup := by
  intro vs
  induction vs with
  | nil => intro _; simp
  | cons a vs ih =>
    intro hnd
    rcases List.nodup_cons.mp hnd with ⟨ha, hnd'⟩
    rw [List.flatMap_cons, List.map_append]
    refine List.Nodup.append (nlargest_pairs_nodup df k a hdf) (ih hnd') ?_
    intro pr hpr1 hpr2
    obtain ⟨x, hx, hpx⟩ := List.mem_map.mp hpr1
    obtain ⟨y, hy, hpy⟩ := List.mem_map.mp hpr2
    obtain ⟨v, hv, hyv⟩ := List.mem_flatMap.mp hy
    have h1 : pr.1 = a := by rw [← hpx]; exact mem_nlargest_user df a k x hx
    have h2 : pr.1 = v := by rw [← hpy]; exact mem_nlargest_user df v k y hyv
    apply ha
    have hav : a = v := by rw [← h1, h2]
    rwa [hav]

theorem sortedUsers_nodup (df : List Rating) :
    ((usersOf df).insertionSort (fun a b => a ≤ b)).Nodup :=
  ((List.perm_insertionSort _ _).symm).nodup (List.nodup_dedup _)

theorem get_top_k_items_countP_le (df : List Rating) (k u : ℕ) :
    ((get_top_k_items df (some k)).countP (fun r => decide (r.user = u))) ≤ k :=
  flatMap_nlargest_countP df k u _ (sortedUsers_nodup df)

theorem get_top_k_items_pairs_nodup (df : List Rating) (k : ℕ)
    (hdf : (df.map (fun r => (r.user, r.item))).Nodup) :
    ((get_top_k_items df (some k)).map (fun r => (r.user, r.item))).Nodup :=
  flatMap_nlargest_pairs_nodup df k hdf _ (sortedUsers_nodup df)

theorem matchTrue_exists (tc : List Rating) (h : HitRow)
    (hm : matchTrue tc h = true) :
    ∃ r ∈ tc, r.user = h.user ∧ r.item = h.item := by
  unfold matchTrue at hm
  rw [List.any_eq_true] at hm
  obtain ⟨r, hr, hb⟩ := hm
  rw [Bool.and_eq_true] at hb
  exact ⟨r, hr, beq_iff_eq.mp hb.1, beq_iff_eq.mp hb.2⟩

theorem items_nodup_of_pairs (l : List HitRow) (u : ℕ)
    (hu : ∀ x ∈ l, x.user = u)
    (hp : (l.map (fun h => (h.user, h.item))).Nodup) :
    (l.map HitRow.item).Nodup := by
  induction l with
  | nil => simp
  | cons a l ih =>
    rw [List.map_cons, List.nodup_cons] at hp ⊢
    refine ⟨?_, ih (fun x hx => hu x (List.mem_cons_of_mem _ hx)) hp.2⟩
    intro hmem
    obtain ⟨y, hy, hitem⟩ := List.mem_map.mp hmem
    apply hp.1
    refine List.mem_map.mpr ⟨y, hy, ?_⟩
    have h1 := hu a (List.mem_cons_self a l)
    have h2 := hu y (List.mem_cons_of_mem _ hy)
    rw [h2, h1, hitem]

/-- The final aggregation lies in `[0, 1]` once per-user hit ranks are
strictly increasing and at least `1`, per-user hit counts stay below both
`actual` and `k`, and there are at most `n_users` users with hits. -/
theorem ndcg_value_mem_unit (hits : List HitRow) (tc : List Rating) (k n_users : ℕ)
    (hpw : ∀ u, (hits.filter (fun h => h.user = u)).Pairwise
        (fun a b => a.rank < b.rank))
    (hlen : ∀ u ∈ (hits.map HitRow.user).dedup,
        (hits.filter (fun h => h.user = u)).length ≤ min (actualCount tc u) k)
    (hmin1 : ∀ u ∈ (hits.map HitRow.user).dedup, 1 ≤ min (actualCount tc u) k)
    (hrank1 : ∀ h ∈ hits, 1 ≤ h.rank)
    (husers : ((hits.map HitRow.user).dedup).length ≤ n_users)
    (hnu : 0 < n_users) :
    0 ≤ ndcg_value hits tc k n_users ∧ ndcg_value hits tc k n_users ≤ 1 := by
  have hratio : ∀ u ∈ (hits.map HitRow.user).dedup,
      0 ≤ dcgOf hits u / idcgOf (min (actualCount tc u) k)
      ∧ dcgOf hits u / idcgOf (min (actualCount tc u) k) ≤ 1 := by
    intro u hu
    have hipos := idcgOf_pos _ (hmin1 u hu)
    have hdnn : 0 ≤ dcgOf hits u := by
      unfold dcgOf
      apply List.sum_nonneg
      intro y hy
      obtain ⟨h, _, rfl⟩ := List.mem_map.mp hy
      exact dcgTerm_nonneg _
    refine ⟨div_nonneg hdnn hipos.le, ?_⟩
    rw [div_le_one hipos]
    unfold dcgOf
    apply dcg_le_idcg_of _ _ (hpw u) _ (hlen u hu)
    intro h hh
    exact hrank1 h (List.mem_of_mem_filter hh)
  unfold ndcg_value
  constructor
  · apply div_nonneg _ (Nat.cast_nonneg n_users)
    apply List.sum_nonneg
    intro y hy
    obtain ⟨u, hu, rfl⟩ := List.mem_map.mp hy
    exact (hratio u hu).1
  · rw [div_le_one (by exact_mod_cast hnu)]
    have hsum : (((hits.map HitRow.user).dedup).map
        (fun u => dcgOf hits u / idcgOf (min (actualCount tc u) k))).sum
        ≤ (((hits.map HitRow.user).dedup).map
          (fun u => dcgOf hits u / idcgOf (min (actualCount tc u) k))).length • (1:ℝ) := by
      apply List.sum_le_card_nsmul
      intro y hy
      obtain ⟨u, hu, rfl⟩ := List.mem_map.mp hy
      exact (hratio u hu).2
    rw [List.length_map] at hsum
    calc (((hits.map HitRow.user).dedup).map
        (fun u => dcgOf hits u / idcgOf (min (actualCount tc u) k))).sum
        ≤ ((hits.map HitRow.user).dedup).length • (1:ℝ) := hsum
      _ = (((hits.map HitRow.user).dedup).length : ℝ) := by simp
      _ ≤ (n_users : ℝ) := by exact_mod_cast husers

/-! ### C6: the produced `df_hit` satisfies those hypotheses -/

theorem hitsOf_pairwise (t p : List Rating) (k u : ℕ) :
    ((hitsOf t p k).filter (fun h => h.user = u)).Pairwise
      (fun a b => a.rank < b.rank) := by
  have h0 := addRankFrom_pairwise (get_top_k_items (pcOf t p) (some k)) []
  have h1 : ((hitsOf t p k).filter (fun h => h.user = u)).Pairwise
      (fun a b => a.user = b.user → a.rank < b.rank) :=
    (h0.filter _).filter _
  refine List.Pairwise.imp_of_mem ?_ h1
  intro a b ha hb hR
  apply hR
  have ha' : a.user = u := by simpa using List.of_mem_filter ha
  have hb' : b.user = u := by simpa using List.of_mem_filter hb
  rw [ha', hb']

theorem hitsOf_rank_ge_one (t p : List Rating) (k : ℕ) (h : HitRow)
    (hh : h ∈ hitsOf t p k) : 1 ≤ h.rank :=
  addRank_rank_ge_one _ h (List.mem_of_mem_filter hh)

theorem hitsOf_user_le_k (t p : List Rating) (k u : ℕ) :
    ((hitsOf t p k).filter (fun h => h.user = u)).length ≤ k := by
  rw [← List.countP_eq_length_filter]
  unfold hitsOf
  rw [List.countP_filter]
  calc List.countP (fun a => decide (a.user = u) && matchTrue (tcOf t p) a)
        (addRank (get_top_k_items (pcOf t p) (some k)))
      ≤ List.countP (fun a => decide (a.user = u))
        (addRank (get_top_k_items (pcOf t p) (some k))) := by
        apply List.countP_mono_left
        intro x _ hx
        exact (Bool.and_eq_true _ _ ▸ hx).1
    _ = List.countP (fun r => decide (r.user = u))
        (get_top_k_items (pcOf t p) (some k)) := countP_user_addRank _ u
    _ ≤ k := get_top_k_items_countP_le _ k u

theorem hitsOf_user_le_actual (t p : List Rating) (k u : ℕ)
    (_ht : (t.map (fun r => (r.user, r.item))).Nodup)
    (hp : (p.map (fun r => (r.user, r.item))).Nodup) :
    ((hitsOf t p k).filter (fun h => h.user = u)).length
      ≤ actualCount (tcOf t p) u := by
  have htop : ((get_top_k_items (pcOf t p) (some k)).map
      (fun r => (r.user, r.item))).Nodup := by
    apply get_top_k_items_pairs_nodup
    exact List.Nodup.sublist ((List.filter_sublist p).map _) hp
  have hsub : ((hitsOf t p k).filter (fun h => h.user = u)).Sublist
      (addRank (get_top_k_items (pcOf t p) (some k))) :=
    (List.filter_sublist _).trans (List.filter_sublist _)
  have hhpairs : (((hitsOf t p k).filter (fun h => h.user = u)).map
      (fun h => (h.user, h.item))).Nodup := by
    have hm := hsub.map (fun h => (h.user, h.item))
    rw [addRank, addRankFrom_map_pair] at hm
    exact List.Nodup.sublist hm htop
  have hitems : (((hitsOf t p k).filter (fun h => h.user = u)).map
      HitRow.item).Nodup := by
    apply items_nodup_of_pairs _ u _ hhpairs
    intro x hx
    simpa using List.of_mem_filter hx
  have hsubset : (((hitsOf t p k).filter (fun h => h.user = u)).map HitRow.item)
      ⊆ ((tcOf t p).filter (fun r => r.user = u)).map Rating.item := by
    intro it hit
    obtain ⟨h, hh, rfl⟩ := List.mem_map.mp hit
    have hu' : h.user = u := by simpa using List.of_mem_filter hh
    have hmem : h ∈ hitsOf t p k := List.mem_of_mem_filter hh
    unfold hitsOf at hmem
    have hmatch := List.of_mem_filter hmem
    obtain ⟨r, hr, hru, hri⟩ := matchTrue_exists _ _ hmatch
    apply List.mem_map.mpr
    refine ⟨r, ?_, hri⟩
    apply List.mem_filter.mpr
    exact ⟨hr, by simp [hru, hu']⟩
  have hle := (List.subperm_of_subset hitems hsubset).length_le
  rw [List.length_map, List.length_map] at hle
  unfold actualCount
  exact hle

theorem hitsOf_min_ge_one (t p : List Rating) (k u : ℕ)
    (hu : u ∈ ((hitsOf t p k).map HitRow.user).dedup) :
    1 ≤ min (actualCount (tcOf t p) u) k := by
  rw [List.mem_dedup] at hu
  obtain ⟨h, hh, hhu⟩ := List.mem_map.mp hu
  have hh' := hh
  unfold hitsOf at hh'
  have hmatch := List.of_mem_filter hh'
  obtain ⟨r, hr, hru, _⟩ := matchTrue_exists _ _ hmatch
  have hr' : r ∈ (tcOf t p).filter (fun r' => r'.user = u) :=
    List.mem_filter.mpr ⟨hr, by simp [hru, hhu]⟩
  have h1 : 1 ≤ actualCount (tcOf t p) u := by
    unfold actualCount
    have hpos := List.length_pos.mpr (List.ne_nil_of_mem hr')
    omega
  have hmem := List.mem_of_mem_filter hh'
  have hpair : (h.user, h.item) ∈ (addRank (get_top_k_items (pcOf t p) (some k))).map
      (fun x => (x.user, x.item)) := List.mem_map_of_mem _ hmem
  rw [addRank, addRankFrom_map_pair] at hpair
  obtain ⟨r2, hr2, hr2p⟩ := List.mem_map.mp hpair
  have hr2u : r2.user = u := by
    have hfst := congrArg Prod.fst hr2p
    simpa [hhu] using hfst
  have h2 : 1 ≤ k := by
    have hpos : 0 < (get_top_k_items (pcOf t p) (some k)).countP
        (fun r' => decide (r'.user = u)) :=
      List.countP_pos_iff.mpr ⟨r2, hr2, by simp [hr2u]⟩
    have hle := get_top_k_items_countP_le (pcOf t p) k u
    omega
  omega

theorem hitsOf_user_mem_cu (t p : List Rating) (k u : ℕ)
    (hu : u ∈ ((hitsOf t p k).map HitRow.user).dedup) :
    u ∈ common_users t p := by
  rw [List.mem_dedup] at hu
  obtain ⟨h, hh, hhu⟩ := List.mem_map.mp hu
  unfold hitsOf at hh
  have hmatch := List.of_mem_filter hh
  obtain ⟨r, hr, hru, _⟩ := matchTrue_exists _ _ hmatch
  unfold tcOf filterUsers at hr
  have hmemcu : r.user ∈ common_users t p := by
    simpa using List.of_mem_filter hr
  rw [← hhu, ← hru]
  exact hmemcu

theorem hitsOf_users_le (t p : List Rating) (k : ℕ) :
    (((hitsOf t p k).map HitRow.user).dedup).length
      ≤ (common_users t p).length := by
  apply List.Subperm.length_le
  apply List.subperm_of_subset (List.nodup_dedup _)
  intro u hu
  exact hitsOf_user_mem_cu t p k u hu

theorem hitsOf_cu_pos (t p : List Rating) (k : ℕ)
    (hne : hitsOf t p k ≠ []) : 0 < (common_users t p).length := by
  obtain ⟨h, hh⟩ := List.exists_mem_of_ne_nil _ hne
  have hu : h.user ∈ ((hitsOf t p k).map HitRow.user).dedup := by
    rw [List.mem_dedup]
    exact List.mem_map_of_mem _ hh
  have hcu := hitsOf_user_mem_cu t p k h.user hu
  exact List.length_pos.mpr (List.ne_nil_of_mem hcu)

/-! ### C6: the main theorem -/

/-- C6: for valid tables — no duplicate `(user, item)` key on either side,
as a rating/prediction table has; duplicated keys would be multiplied by the
inner merge — and for every `k`, `ndcg_at_k` (with its default `top_k`
relevancy) returns a value in the closed interval `[0, 1]`. -/
theorem ndcg_at_k_unit_interval (t p : List Rating) (k thr : ℕ)
    (ht : (t.map (fun r => (r.user, r.item))).Nodup)
    (hp : (p.map (fun r => (r.user, r.item))).Nodup) :
    ∃ v, ndcg_at_k t p (some "top_k") k thr = .ok v ∧ 0 ≤ v ∧ v ≤ 1 := by
  have hrel : relevancyTopK (some "top_k") k thr = Except.ok (some k) := by
    simp [relevancyTopK]
  have hmerge : merge_ranking_true_pred t p (some "top_k") k thr =
      .ok (hitsOf t p k,
        (((hitsOf t p k).map HitRow.user).dedup).map
          (fun u => (u, ((hitsOf t p k).filter (fun h => h.user = u)).length,
            actualCount (tcOf t p) u)),
        (common_users t p).length) := by
    simp only [merge_ranking_true_pred, hrel]
    rfl
  have hval : ndcg_at_k t p (some "top_k") k thr =
      if (hitsOf t p k).isEmpty then .ok 0
      else .ok (ndcg_value (hitsOf t p k) (tcOf t p) k (common_users t p).length) := by
    unfold ndcg_at_k
    rw [hmerge]
    rfl
  rw [hval]
  by_cases hh : (hitsOf t p k).isEmpty
  · rw [if_pos hh]
    exact ⟨0, rfl, le_refl 0, zero_le_one⟩
  · rw [if_neg hh]
    have hne : hitsOf t p k ≠ [] := by
      intro hcon
      apply hh
      rw [hcon]
      rfl
    have hb := ndcg_value_mem_unit (hitsOf t p k) (tcOf t p) k
      (common_users t p).length
      (fun u => hitsOf_pairwise t p k u)
      (fun u hu => le_min (hitsOf_user_le_actual t p k u ht hp)
        (hitsOf_user_le_k t p k u))
      (fun u hu => hitsOf_min_ge_one t p k u hu)
      (fun h hh' => hitsOf_rank_ge_one t p k h hh')
      (hitsOf_users_le t p k)
      (hitsOf_cu_pos t p k hne)
    exact ⟨_, rfl, hb.1, hb.2⟩

/-- Witness for C6 at a concrete call: one user, one item, a perfect hit. -/
theorem ndcg_at_k_unit_interval_witness :
    ∃ v, ndcg_at_k [⟨1, 1, 5⟩] [⟨1, 1, 9⟩] (some "top_k") 1 10 = .ok v
      ∧ 0 ≤ v ∧ v ≤ 1 :=
  ndcg_at_k_unit_interval [⟨1, 1, 5⟩] [⟨1, 1, 9⟩] 1 10 (by decide) (by decide)

end SVAE
